import Mathlib

/-!
Shallow embedding of the distributed routing core of lupyne (src/lupyne/client.py):
per-host connection pools with bounded idle queues, priority-based host choice,
the staged three-round broadcast pipeline, shard multicast covering-set search,
and replica failover.  Definitions follow the Python source; theorems settle the
spec claims about them.
-/

/-- Hosts are opaque string identifiers in the source; modelled as naturals. -/
abbrev Host := Nat

/-- Shard keys (opaque in the source). -/
abbrev Key := Nat

/-- httplib.OK. -/
def OK : Nat := 200

/-- httplib.MULTIPLE_CHOICES. -/
def MULTIPLE_CHOICES : Nat := 300

/-- httplib.BAD_REQUEST. -/
def BAD_REQUEST : Nat := 400

/-- httplib.REQUEST_TIMEOUT. -/
def REQUEST_TIMEOUT : Nat := 408

/-- errno.ECONNRESET (Linux value 104). -/
def ECONNRESET : Nat := 104

/-- A completed HTTP response, as produced by Response.end: status and body. -/
structure Response where
  status : Nat
  body : String
deriving DecidableEq, Repr

/-- Response.__nonzero__ (client.py line 40): the status is successful iff it
lies in [OK, MULTIPLE_CHOICES). -/
def Response.success (r : Response) : Bool :=
  decide (OK ≤ r.status) && decide (r.status < MULTIPLE_CHOICES)

/-- Outcome of one low-level resource.getresponse() call on a connection:
a completed response, a malformed status line (httplib.BadStatusLine), or a
socket.error carrying an errno. -/
inductive RecvOutcome where
  | ok (r : Response)
  | badStatusLine
  | sockErr (e : Nat)
deriving DecidableEq, Repr

/-- An exception escaping the transport layer: a socket.error with its errno,
or httplib.BadStatusLine. -/
inductive TransErr where
  | sock (e : Nat)
  | badLine
deriving DecidableEq, Repr

/-- A raw resource.getresponse() call (no pool wrapper): the response, or the
exception it raises. -/
def rawRecv : RecvOutcome → Except TransErr Response
  | .ok r => .ok r
  | .badStatusLine => .error .badLine
  | .sockErr e => .error (.sock e)

/-- Behaviour of collections.deque(maxlen := limit).append, which backs the
idle queues of Resources (client.py line 120): with limit 0 the append is
ignored, and on a full deque the oldest (leftmost) element is discarded. -/
def dequeAppend (limit : Nat) (q : List Nat) (r : Nat) : List Nat :=
  if limit = 0 then q
  else if q.length < limit then q ++ [r]
  else q.drop 1 ++ [r]

/-- Resources.request (client.py lines 124-131) acting on one host's idle
queue: pop the leftmost idle resource if any, else allocate a fresh one from
the counter.  Returns the resource used, the new queue, and the new counter. -/
def Resources.request (q : List Nat) (next : Nat) : Nat × List Nat × Nat :=
  match q with
  | r :: rest => (r, rest, next)
  | [] => (next, [], next + 1)

/-- Reuse test inside Resources.getresponse (client.py line 143): the
connection is requeued unless the status is REQUEST_TIMEOUT, or it is
BAD_REQUEST with the specific header-parsing error body. -/
def reusable (r : Response) : Bool :=
  r.status != REQUEST_TIMEOUT &&
    (r.status != BAD_REQUEST || r.body != "Illegal end of headers.")

/-- Resources.getresponse (client.py lines 132-146) for one host queue: either
re-raise the socket error (errno other than ECONNRESET), or return the optional
completed response, the new idle queue, and whether the resource was closed.
BadStatusLine and ECONNRESET are swallowed: the response is None and the
resource closed, signalling to the caller that the request may be repeated. -/
def Resources.getresponse (limit : Nat) (q : List Nat) (r : Nat) :
    RecvOutcome → Except TransErr (Option Response × List Nat × Bool)
  | .ok resp =>
      if reusable resp then .ok (some resp, dequeAppend limit q r, false)
      else .ok (none, q, true)
  | .badStatusLine => .ok (none, q, true)
  | .sockErr e =>
      if e = ECONNRESET then .ok (none, q, true) else .error (.sock e)

/-- Resources.priority (client.py lines 147-149): minus the idle-queue length;
never the eliminating sentinel (None). -/
def Resources.priority (qlen : Host → Nat) (h : Host) : Option Int :=
  some (-(qlen h : Int))

/-- Replicas.priority (client.py lines 223-226): the sentinel (None) when the
host queue carries a nonzero failure timestamp, else minus the idle-queue
length. -/
def Replicas.priority (failure : Host → Nat) (qlen : Host → Nat) (h : Host) :
    Option Int :=
  if failure h = 0 then some (-(qlen h : Int)) else none

/-- Resources.choice (client.py lines 150-156): group the candidates by
priority, drop the sentinel (None) group, and index pseudo-randomly into the
minimum-priority group.  The pick argument stands for random.choice; the result
is none exactly when every candidate is ineligible (where Python raises). -/
def choice {A P : Type} [LinearOrder P] (prio : A → Option P) (items : List A)
    (pick : Nat) : Option A :=
  match (items.filterMap prio).min? with
  | none => none
  | some m =>
      let group := items.filter fun a => decide (prio a = some m)
      group.get? (pick % group.length)

/-- Pool state of a Resources mapping: the idle queue per host and a counter
allocating fresh resource identities. -/
structure PState where
  queues : Host → List Nat
  next : Nat

/-- Replace one host's idle queue. -/
def PState.setQueue (st : PState) (host : Host) (q : List Nat) : PState :=
  { st with queues := fun h => if h = host then q else st.queues h }

/-- Transport behaviour oracle for one attempt: the pool limit, the outcome of
the first receive on each host, and the outcome of the receive following a
resend. -/
structure Env where
  limit : Nat
  first : Host → RecvOutcome
  second : Host → RecvOutcome

/-- Stage of one per-host pipeline of Resources.stream (client.py lines
157-166), between consecutive yields of the generator. -/
inductive Stage where
  | start
  | sent (rid : Nat)
  | received (rid : Nat) (resp : Option Response) (resent : Bool)
  | done (r : Response)
deriving DecidableEq, Repr

/-- Advance one pipeline by one stage (one next() on the generator of
Resources.stream).  Stage one sends on a pooled or fresh resource; stage two
runs the pool-level Resources.getresponse and, when it yields no response,
resends the identical request on the same resource; stage three returns the
response, receiving it raw when a resend happened.  The yielded value is some
response only at the third stage.  The done case is never reached within the
three rounds of broadcast (a fourth next() would raise StopIteration). -/
def streamStep (env : Env) (host : Host) :
    Stage → PState → Except TransErr (Option Response × Stage × PState)
  | .start, st =>
      match Resources.request (st.queues host) st.next with
      | (rid, q2, next2) =>
          .ok (none, .sent rid, { st.setQueue host q2 with next := next2 })
  | .sent rid, st =>
      match Resources.getresponse env.limit (st.queues host) rid (env.first host) with
      | .error e => .error e
      | .ok (resp, q2, _) =>
          .ok (none, .received rid resp resp.isNone, st.setQueue host q2)
  | .received _ (some r) _, st => .ok (some r, .done r, st)
  | .received _ none _, st =>
      match rawRecv (env.second host) with
      | .error e => .error e
      | .ok r => .ok (some r, .done r, st)
  | .done r, st => .ok (some r, .done r, st)

/-- One lockstep round of broadcast: advance every pipeline once, in list
order, threading the pool state (list(map(next, streams)), client.py line
176).  Returns the yields, the advanced pipelines, and the new pool state. -/
def broadcastRound (env : Env) :
    List (Host × Stage) → PState →
    Except TransErr (List (Option Response) × List (Host × Stage) × PState)
  | [], st => .ok ([], [], st)
  | (h, s) :: rest, st =>
      match streamStep env h s st with
      | .error e => .error e
      | .ok (y, s2, st2) =>
          match broadcastRound env rest st2 with
          | .error e => .error e
          | .ok (ys, ps, st3) => .ok (y :: ys, (h, s2) :: ps, st3)

/-- Resources.broadcast (client.py lines 171-177): one pipeline per host,
advanced in lockstep for exactly three rounds in the same relative order; the
yields of the third round are the responses returned. -/
def Resources.broadcast (env : Env) (hosts : List Host) (st : PState) :
    Except TransErr (List (Option Response)) :=
  match broadcastRound env (hosts.map fun h => (h, Stage.start)) st with
  | .error e => .error e
  | .ok (_, ps1, st1) =>
      match broadcastRound env ps1 st1 with
      | .error e => .error e
      | .ok (_, ps2, st2) =>
          match broadcastRound env ps2 st2 with
          | .error e => .error e
          | .ok (ys, _, _) => .ok ys

/-- Run one full stream against a single host to completion, as
list(self.stream(host, method, path, body))[-1] does in unicast and in
Replicas.call: the three stages in sequence, returning the final pool state
with the response or the escaping exception.  The last branch is unreachable:
the third stage always yields a response when it does not raise. -/
def streamRun (env : Env) (host : Host) (st : PState) :
    PState × Except TransErr Response :=
  match streamStep env host .start st with
  | .error e => (st, .error e)
  | .ok (_, s1, st1) =>
      match streamStep env host s1 st1 with
      | .error e => (st1, .error e)
      | .ok (_, s2, st2) =>
          match streamStep env host s2 st2 with
          | .error e => (st2, .error e)
          | .ok (some r, _, st3) => (st3, .ok r)
          | .ok (none, _, st3) => (st3, .error .badLine)

/-- Hosts actually used by unicast and broadcast: an empty optional subset
falls back to all known hosts (tuple(hosts) or self, client.py lines 169 and
173). -/
def resolveHosts (sub allHosts : List Host) : List Host :=
  if sub.isEmpty then allHosts else sub

/-- Cross-product expansion of Shards.multicast (client.py lines 207-209):
start from the single empty combination and, for each key, union every
existing combination with each host of that key's shard group.  The Python
version deduplicates through a set of frozensets; the list model may keep
duplicates, which changes neither coverage nor the minimum. -/
def multicastCombos (index : Key → List Host) (keys : List Key) :
    List (Finset Host) :=
  keys.foldl
    (fun shards key => shards.flatMap fun s => (index key).map fun h => insert h s)
    [∅]

/-- Shards.priority (client.py lines 192-196): the pair of the host count and
the summed per-host Resources.priority values, compared lexicographically as
Python compares tuples.  The underlying Resources.priority is never None, so
the combined priority is always present. -/
def Shards.priority (qlen : Host → Nat) (s : Finset Host) : Option (ℕ ×ₗ ℤ) :=
  some (toLex (s.card, s.sum fun h => -(qlen h : ℤ)))

/-- Shards.multicast (client.py lines 203-210), up to the host set handed to
broadcast: choose among the expanded combinations by combined priority, then
resolve the chosen set against all known hosts exactly as broadcast does (an
empty chosen set falls back to every known host). -/
def Shards.multicastTargets (index : Key → List Host) (qlen : Host → Nat)
    (allHosts : List Host) (keys : List Key) (pick : Nat) : Option (List Host) :=
  (choice (Shards.priority qlen) (multicastCombos index keys) pick).map
    fun s => resolveHosts (s.sort (· ≤ ·)) allHosts

/-- State of a Replicas instance: the ordered host deque (self.hosts), the
keys of the underlying dict (which never shrink), the failure timestamp per
host queue (0 meaning healthy; time.time() is nonzero), and the pool. -/
structure RepState where
  hosts : List Host
  allHosts : List Host
  failure : Host → Nat
  pool : PState

/-- Outcome of Replicas.call in the model. -/
inductive CallOutcome where
  | response (r : Response)
  | uncaught (e : TransErr)
  | noHost
  | outOfFuel
deriving DecidableEq, Repr

/-- Replicas.call (client.py lines 227-242), one Env per attempt: pick the
target (choice over all dict hosts for GET, the head of the ordered list for a
write), run one full stream, and on a socket.error mark the host's failure
timestamp, drop the head of the ordered list when the method mutates, and
retry the whole call; a completed but unsuccessful response is retried while
the retry budget lasts, and the last response is returned once it is spent.
Returns the list of attempted targets with the outcome: noHost where Python
raises for want of a target, outOfFuel when the oracle list runs out, and
uncaught for an exception other than socket.error. -/
def Replicas.call (pick : Nat) (isGet : Bool) :
    RepState → Nat → List Env → List Host × CallOutcome
  | _, _, [] => ([], .outOfFuel)
  | st, retry, env :: envs =>
      match
        if isGet then
          choice (Replicas.priority st.failure fun h => (st.pool.queues h).length)
            st.allHosts pick
        else st.hosts.head? with
      | none => ([], .noHost)
      | some host =>
          match streamRun env host st.pool with
          | (pool2, .error (.sock _)) =>
              let st2 : RepState :=
                { st with
                  failure := fun h => if h = host then 1 else st.failure h,
                  hosts := if isGet then st.hosts else st.hosts.tail,
                  pool := pool2 }
              match Replicas.call pick isGet st2 retry envs with
              | (ts, out) => (host :: ts, out)
          | (_, .error e) => ([host], .uncaught e)
          | (pool2, .ok r) =>
              if r.success || retry = 0 then ([host], .response r)
              else
                match Replicas.call pick isGet { st with pool := pool2 }
                    (retry - 1) envs with
                | (ts, out) => (host :: ts, out)

/-- One synchronous request/response cycle against a single host's pool with
the given receive outcome: Resources.request followed by Resources.getresponse
(the sequential single-host usage pattern of the pool). -/
def seqCycle (limit : Nat) (q : List Nat) (next : Nat) (out : RecvOutcome) :
    Except TransErr (Option Response × List Nat × Nat) :=
  match Resources.request q next with
  | (rid, q1, next1) =>
      match Resources.getresponse limit q1 rid out with
      | .error e => .error e
      | .ok (resp, q2, _) => .ok (resp, q2, next1)

/-- Sequential single-host requests: fold seqCycle over a list of receive
outcomes, returning the final idle queue and resource counter. -/
def seqRun (limit : Nat) (q : List Nat) (next : Nat) :
    List RecvOutcome → Except TransErr (List Nat × Nat)
  | [] => .ok (q, next)
  | out :: outs =>
      match seqCycle limit q next out with
      | .error e => .error e
      | .ok (_, q2, next2) => seqRun limit q2 next2 outs

/-- List.min? of a linear order returns exactly the least element. -/
theorem min?_eq_some_iff_lin {α : Type} [LinearOrder α] {a : α} {xs : List α} :
    xs.min? = some a ↔ a ∈ xs ∧ ∀ b ∈ xs, a ≤ b := by
  have : Std.Antisymm (fun x1 x2 : α => x1 ≤ x2) := ⟨fun h h2 => le_antisymm h h2⟩
  exact List.min?_eq_some_iff (fun a => le_refl a) (fun a b => min_choice a b)
    (fun a b c => le_min_iff)

/-- Dropping the ineligible candidates first does not change the mapped
priorities. -/
theorem filterMap_filter_isSome {A P : Type} (prio : A → Option P)
    (items : List A) :
    (items.filter fun a => (prio a).isSome).filterMap prio =
      items.filterMap prio := by
  induction items with
  | nil => rfl
  | cons a t ih =>
      cases h : prio a with
      | none => simp [List.filter_cons, List.filterMap_cons, h, ih]
      | some p => simp [List.filter_cons, List.filterMap_cons, h, ih]

/-- What a successful choice means: the result is a candidate whose priority
is the minimum of all candidate priorities. -/
theorem choice_mem_prio {A P : Type} [LinearOrder P] {prio : A → Option P}
    {items : List A} {pick : Nat} {a : A}
    (h : choice prio items pick = some a) :
    a ∈ items ∧ ∃ m, prio a = some m ∧ (items.filterMap prio).min? = some m := by
  unfold choice at h
  cases hmin : (items.filterMap prio).min? with
  | none => rw [hmin] at h; exact absurd h (by simp)
  | some m =>
      rw [hmin] at h
      simp only at h
      have hmem := List.get?_mem h
      have := List.mem_filter.mp hmem
      exact ⟨this.1, m, of_decide_eq_true this.2, rfl⟩

/-- Choice succeeds as soon as the candidate priorities have a minimum. -/
theorem choice_eq_some_of_min {A P : Type} [LinearOrder P] (prio : A → Option P)
    (items : List A) (pick : Nat) (m : P)
    (hmin : (items.filterMap prio).min? = some m) :
    ∃ a, choice prio items pick = some a := by
  obtain ⟨hmem, -⟩ := min?_eq_some_iff_lin.mp hmin
  obtain ⟨a, ha, hpa⟩ := List.mem_filterMap.mp hmem
  have hag : a ∈ items.filter fun x => decide (prio x = some m) :=
    List.mem_filter.mpr ⟨ha, decide_eq_true hpa⟩
  have hlen : 0 < (items.filter fun x => decide (prio x = some m)).length :=
    List.length_pos.mpr (List.ne_nil_of_mem hag)
  have hlt : pick % (items.filter fun x => decide (prio x = some m)).length <
      (items.filter fun x => decide (prio x = some m)).length :=
    Nat.mod_lt _ hlen
  unfold choice
  rw [hmin]
  simp only
  exact ⟨_, List.get?_eq_get hlt⟩

/-- Lexicographic comparison bounds the first component. -/
theorem lex_le_fst {a b : ℕ ×ₗ ℤ} (h : a ≤ b) : (ofLex a).1 ≤ (ofLex b).1 := by
  rcases (Prod.Lex.le_iff a b).mp h with h1 | ⟨h1, -⟩
  · exact le_of_lt h1
  · exact le_of_eq h1




/-- C4: releasing a connection after a completed response with status 408
(request timeout) never requeues it: the idle queue is unchanged and the
connection is closed.  After a status 200 the connection is requeued and the
idle-queue length grows by one, capped at the configured limit. -/
theorem release_timeout_vs_success (limit : Nat) (q : List Nat) (r : Nat)
    (b1 b2 : String) (hq : q.length ≤ limit) :
    Resources.getresponse limit q r (.ok ⟨REQUEST_TIMEOUT, b1⟩) = .ok (none, q, true) ∧
    Resources.getresponse limit q r (.ok ⟨OK, b2⟩) =
      .ok (some ⟨OK, b2⟩, dequeAppend limit q r, false) ∧
    (dequeAppend limit q r).length = min (q.length + 1) limit := by
  refine ⟨?_, ?_, ?_⟩
  · simp [Resources.getresponse, reusable, REQUEST_TIMEOUT]
  · simp [Resources.getresponse, reusable, REQUEST_TIMEOUT, OK, BAD_REQUEST]
  · unfold dequeAppend
    by_cases h0 : limit = 0
    · subst h0
      have : q = [] := List.eq_nil_of_length_eq_zero (Nat.le_zero.mp hq)
      simp [this]
    · by_cases hlt : q.length < limit
      · simp [h0, hlt]
        omega
      · have hql : q.length = limit := le_antisymm hq (Nat.le_of_not_lt hlt)
        have hpos : 0 < q.length := by omega
        simp [h0, hlt]
        have : (q.drop 1).length = q.length - 1 := by simp
        omega

/-- C4 witness at a concrete pool. -/
theorem release_timeout_vs_success_witness :
    Resources.getresponse 2 [5] 7 (.ok ⟨REQUEST_TIMEOUT, "t"⟩) = .ok (none, [5], true) ∧
    Resources.getresponse 2 [5] 7 (.ok ⟨OK, "k"⟩) =
      .ok (some ⟨OK, "k"⟩, dequeAppend 2 [5] 7, false) ∧
    (dequeAppend 2 [5] 7).length = min ([5].length + 1) 2 :=
  release_timeout_vs_success 2 [5] 7 "t" "k" (by decide)

/-- C5: a host whose queue records no failure timestamp has priority minus its
idle-queue length, and a host with a nonzero failure timestamp gets the
sentinel and is never returned by choice, whatever its idle count. -/
theorem replicas_priority_spec (failure qlen : Host → Nat) (h : Host) :
    (failure h = 0 → Replicas.priority failure qlen h = some (-(qlen h : Int))) ∧
    (failure h ≠ 0 →
      Replicas.priority failure qlen h = none ∧
      ∀ (hosts : List Host) (pick : Nat),
        choice (Replicas.priority failure qlen) hosts pick ≠ some h) := by
  constructor
  · intro h0
    simp [Replicas.priority, h0]
  · intro hf
    have hnone : Replicas.priority failure qlen h = none := by
      simp [Replicas.priority, hf]
    refine ⟨hnone, fun hosts pick hc => ?_⟩
    obtain ⟨-, m, hm, -⟩ := choice_mem_prio hc
    rw [hnone] at hm
    exact Option.noConfusion hm

/-- C5 witness: failure timestamps taken from the host number itself. -/
theorem replicas_priority_spec_witness :
    Replicas.priority (fun x => x) (fun _ => 3) 0 = some (-((3 : Nat) : Int)) ∧
    Replicas.priority (fun x => x) (fun _ => 3) 1 = none ∧
    choice (Replicas.priority (fun x => x) (fun _ => 3)) [1] 0 ≠ some 1 := by
  have h0 := (replicas_priority_spec (fun x => x) (fun _ => 3) 0).1 rfl
  have h1 := (replicas_priority_spec (fun x => x) (fun _ => 3) 1).2 (by decide)
  exact ⟨h0, h1.1, h1.2 [1] 0⟩

/-- C6: choice never returns a candidate whose priority is the sentinel, and
whenever exactly one candidate is eligible, choice returns that candidate for
every pick. -/
theorem choice_no_sentinel_unique (prio : Host → Option Int) (items : List Host) :
    (∀ pick a, choice prio items pick = some a → prio a ≠ none) ∧
    (∀ a0, items.filter (fun a => (prio a).isSome) = [a0] →
      ∀ pick, choice prio items pick = some a0) := by
  constructor
  · intro pick a hc
    obtain ⟨-, m, hm, -⟩ := choice_mem_prio hc
    rw [hm]
    exact fun hcon => Option.noConfusion hcon
  · intro a0 hone pick
    obtain ⟨m0, hm0⟩ : ∃ m0, prio a0 = some m0 := by
      have : a0 ∈ items.filter (fun a => (prio a).isSome) := by
        rw [hone]; exact List.mem_singleton_self a0
      have := (List.mem_filter.mp this).2
      exact Option.isSome_iff_exists.mp this
    have hmaps : items.filterMap prio = [m0] := by
      rw [← filterMap_filter_isSome prio items, hone]
      simp [List.filterMap_cons, hm0]
    have hmin : (items.filterMap prio).min? = some m0 := by
      rw [hmaps]; rfl
    have hgrp : (items.filter fun a => decide (prio a = some m0)) = [a0] := by
      have hsub : ∀ a ∈ items,
          (decide (prio a = some m0)) =
            (decide (prio a = some m0) && (prio a).isSome) := by
        intro a _
        cases hpa : prio a with
        | none => simp
        | some p => simp
      calc (items.filter fun a => decide (prio a = some m0))
          = items.filter fun a => decide (prio a = some m0) && (prio a).isSome :=
            List.filter_congr hsub
        _ = (items.filter fun a => (prio a).isSome).filter
              fun a => decide (prio a = some m0) :=
            (List.filter_filter _ _).symm
        _ = [a0] := by rw [hone]; simp [hm0]
    unfold choice
    rw [hmin]
    simp only
    rw [hgrp]
    simp [Nat.mod_one]

/-- C6 witness: two candidates, one eligible. -/
theorem choice_no_sentinel_unique_witness :
    choice (fun a : Host => if a = 3 then some (0 : Int) else none) [2, 3] 5 = some 3 ∧
    (fun a : Host => if a = 3 then some (0 : Int) else none) 3 ≠ none := by
  have h := choice_no_sentinel_unique
    (fun a : Host => if a = 3 then some (0 : Int) else none) [2, 3]
  have h2 := h.2 3 (by decide) 5
  exact ⟨h2, h.1 5 3 h2⟩

/-- C8 counterexample: with pool limit 2, three sequential successful requests
to one host do not leave two idle connections cached; the queue holds one. -/
theorem seq_three_requests_counterexample :
    ¬ (∀ qn, seqRun 2 [] 0 [.ok ⟨OK, ""⟩, .ok ⟨OK, ""⟩, .ok ⟨OK, ""⟩] = .ok qn →
        qn.1.length = 2) := by
  intro hcl
  have h := hcl ([0], 1) rfl
  simp at h

/-- C8 amended: with pool limit 2, three sequential successful requests to one
host leave exactly one idle connection cached and allocate exactly one
connection in total: the first connection is popped and requeued each time, so
no third connection ever exists to be closed. -/
theorem seq_three_requests_amended :
    seqRun 2 [] 0 [.ok ⟨OK, ""⟩, .ok ⟨OK, ""⟩, .ok ⟨OK, ""⟩] = .ok ([0], 1) := rfl

/-- C9: during response receipt the pool re-raises a socket error whose errno
is not ECONNRESET; a connection reset (or a malformed status line) instead
yields no response with the connection closed, after which the stream resends
the identical request and serves the second receive's response rather than
surfacing the failure. -/
theorem recv_error_propagation (limit : Nat) (q : List Nat) (rid e : Nat)
    (env : Env) (host : Host) (st : PState) (r2 : Response) :
    (e ≠ ECONNRESET → Resources.getresponse limit q rid (.sockErr e) = .error (.sock e)) ∧
    Resources.getresponse limit q rid (.sockErr ECONNRESET) = .ok (none, q, true) ∧
    Resources.getresponse limit q rid .badStatusLine = .ok (none, q, true) ∧
    (env.first host = .sockErr ECONNRESET →
      streamStep env host (.sent rid) st =
        .ok (none, .received rid none true, st.setQueue host (st.queues host))) ∧
    (env.second host = .ok r2 →
      streamStep env host (.received rid none true) st = .ok (some r2, .done r2, st)) := by
  refine ⟨?_, ?_, ?_, ?_, ?_⟩
  · intro hne
    simp [Resources.getresponse, hne]
  · simp [Resources.getresponse]
  · simp [Resources.getresponse]
  · intro hfst
    simp [streamStep, hfst, Resources.getresponse]
  · intro hsnd
    simp [streamStep, hsnd, rawRecv]

/-- C9 witness at a concrete environment. -/
theorem recv_error_propagation_witness :
    Resources.getresponse 2 [4] 9 (.sockErr 111) = .error (.sock 111) ∧
    Resources.getresponse 2 [4] 9 (.sockErr ECONNRESET) = .ok (none, [4], true) ∧
    Resources.getresponse 2 [4] 9 .badStatusLine = .ok (none, [4], true) ∧
    streamStep ⟨2, fun _ => .sockErr ECONNRESET, fun _ => .ok ⟨200, "y"⟩⟩ 1
        (.sent 9) ⟨fun _ => [4], 5⟩ =
      .ok (none, .received 9 none true,
        PState.setQueue ⟨fun _ => [4], 5⟩ 1 ((⟨fun _ => [4], 5⟩ : PState).queues 1)) ∧
    streamStep ⟨2, fun _ => .sockErr ECONNRESET, fun _ => .ok ⟨200, "y"⟩⟩ 1
        (.received 9 none true) ⟨fun _ => [4], 5⟩ =
      .ok (some ⟨200, "y"⟩, .done ⟨200, "y"⟩, ⟨fun _ => [4], 5⟩) := by
  have h := recv_error_propagation 2 [4] 9 111
    ⟨2, fun _ => .sockErr ECONNRESET, fun _ => .ok ⟨200, "y"⟩⟩ 1 ⟨fun _ => [4], 5⟩
    ⟨200, "y"⟩
  exact ⟨h.1 (by decide), h.2.1, h.2.2.1, h.2.2.2.1 rfl, h.2.2.2.2 rfl⟩

/-- C10: an empty optional host subset resolves to all known hosts for both
unicast and broadcast, and multicast of an empty key batch chooses the empty
combination and therefore broadcasts to every known host rather than to none. -/
theorem empty_hosts_fallback (allHosts : List Host) (index : Key → List Host)
    (qlen : Host → Nat) (pick : Nat) :
    resolveHosts [] allHosts = allHosts ∧
    Shards.multicastTargets index qlen allHosts [] pick = some allHosts := by
  constructor
  · rfl
  · have hc : choice (Shards.priority qlen) (multicastCombos index []) pick =
        some (∅ : Finset Host) := by
      unfold multicastCombos choice
      simp [Shards.priority, Nat.mod_one]
    unfold Shards.multicastTargets
    rw [hc]
    simp [resolveHosts]

/-- Write attempts only ever target hosts of the current ordered list, which
never grows during a call: helper for the failover claim. -/
theorem call_write_targets_subset (pick : Nat) (envs : List Env) :
    ∀ (st : RepState) (retry : Nat) (h : Host),
      h ∈ (Replicas.call pick false st retry envs).1 → h ∈ st.hosts := by
  induction envs with
  | nil =>
      intro st retry h hm
      simp [Replicas.call] at hm
  | cons env envs ih =>
      intro st retry h hm
      rw [Replicas.call] at hm
      simp only [Bool.false_eq_true, if_false] at hm
      split at hm
      · simp at hm
      · rename_i host hh
        have hhost : host ∈ st.hosts := by
          cases hl : st.hosts with
          | nil => rw [hl] at hh; simp at hh
          | cons a t =>
              rw [hl] at hh
              simp only [List.head?_cons, Option.some.injEq] at hh
              rw [← hh]
              exact List.mem_cons_self a t
        split at hm
        · rename_i pool2 e2 hsr
          simp only [List.mem_cons] at hm
          rcases hm with rfl | hmem
          · exact hhost
          · have := ih _ _ _ hmem
            simp only at this
            exact List.mem_of_mem_tail this
        · rename_i pool2 err hsr
          simp only [List.mem_cons] at hm
          rcases hm with rfl | hmem
          · exact hhost
          · simp at hmem
        · rename_i pool2 r hsr
          split at hm
          · simp only [List.mem_cons] at hm
            rcases hm with rfl | hmem
            · exact hhost
            · simp at hmem
          · simp only [List.mem_cons] at hm
            rcases hm with rfl | hmem
            · exact hhost
            · have h2 := ih ⟨st.hosts, st.allHosts, st.failure, pool2⟩ (retry - 1) h hmem
              simpa using h2

/-- The first attempt of a write call targets the head of the ordered list:
helper for the failover claim. -/
theorem call_write_first_target (pick : Nat) (st : RepState) (retry : Nat)
    (env : Env) (envs : List Env) (h0 : Host) (hh : st.hosts.head? = some h0) :
    ((Replicas.call pick false st retry (env :: envs)).1).head? = some h0 := by
  rw [Replicas.call]
  simp only [Bool.false_eq_true, if_false]
  split
  · rename_i hnone
    rw [hh] at hnone
    exact absurd hnone (by simp)
  · rename_i host hhost
    rw [hh] at hhost
    cases Option.some.inj hhost
    split
    · simp
    · simp
    · split
      · simp
      · simp

/-- Unfolding of one write attempt that hits a socket error: failure mark,
head removal, and recursion (helper). -/
theorem call_fail_step (pick retry : Nat) (env : Env) (envs : List Env)
    (st : RepState) (h0 : Host) (pool2 : PState) (e : Nat)
    (hh : st.hosts.head? = some h0)
    (hsr : streamRun env h0 st.pool = (pool2, .error (.sock e))) :
    Replicas.call pick false st retry (env :: envs) =
      (h0 :: (Replicas.call pick false
          ⟨st.hosts.tail, st.allHosts,
            fun h => if h = h0 then 1 else st.failure h, pool2⟩ retry envs).1,
        (Replicas.call pick false
          ⟨st.hosts.tail, st.allHosts,
            fun h => if h = h0 then 1 else st.failure h, pool2⟩ retry envs).2) := by
  rw [Replicas.call]
  simp only [Bool.false_eq_true, if_false, hh, hsr]

/-- Unfolding of one write attempt that completes a response: return it, or
spend one unit of the retry budget (helper). -/
theorem call_ok_step (pick retry : Nat) (env : Env) (envs : List Env)
    (st : RepState) (h0 : Host) (pool2 : PState) (r : Response)
    (hh : st.hosts.head? = some h0)
    (hsr : streamRun env h0 st.pool = (pool2, .ok r)) :
    Replicas.call pick false st retry (env :: envs) =
      if (r.success || decide (retry = 0)) = true then ([h0], .response r)
      else
        (h0 :: (Replicas.call pick false
            ⟨st.hosts, st.allHosts, st.failure, pool2⟩ (retry - 1) envs).1,
          (Replicas.call pick false
            ⟨st.hosts, st.allHosts, st.failure, pool2⟩ (retry - 1) envs).2) := by
  rw [Replicas.call]
  simp only [Bool.false_eq_true, if_false, hh, hsr]

/-- C7: with a retry budget of 2 and a backend whose first two attempts
complete with unsuccessful responses, Replicas.call returns the response of
the third attempt: the successful one when the backend recovers, and, with the
budget exhausted, the last response as-is without raising. -/
theorem replicas_retry_budget (st : RepState) (pick : Nat) (h0 : Host)
    (env1 env2 env3 : Env) (r1 r2 r3 : Response)
    (hh : st.hosts.head? = some h0)
    (h1 : (streamRun env1 h0 st.pool).2 = .ok r1)
    (h2 : (streamRun env2 h0 (streamRun env1 h0 st.pool).1).2 = .ok r2)
    (h3 : (streamRun env3 h0
        (streamRun env2 h0 (streamRun env1 h0 st.pool).1).1).2 = .ok r3)
    (hr1 : r1.success = false) (hr2 : r2.success = false) :
    Replicas.call pick false st 2 [env1, env2, env3] =
      ([h0, h0, h0], .response r3) := by
  rcases hs1 : streamRun env1 h0 st.pool with ⟨p1, res1⟩
  rw [hs1] at h1 h2 h3
  simp only at h1 h2 h3
  subst h1
  rcases hs2 : streamRun env2 h0 p1 with ⟨p2, res2⟩
  rw [hs2] at h2 h3
  simp only at h2 h3
  subst h2
  rcases hs3 : streamRun env3 h0 p2 with ⟨p3, res3⟩
  rw [hs3] at h3
  simp only at h3
  subst h3
  rw [call_ok_step pick 2 env1 [env2, env3] st h0 p1 r1 hh hs1]
  rw [if_neg (by simp [hr1])]
  rw [call_ok_step pick 1 env2 [env3] ⟨st.hosts, st.allHosts, st.failure, p1⟩
    h0 p2 r2 (by simpa using hh) hs2]
  rw [if_neg (by simp [hr2])]
  simp only
  rw [call_ok_step pick 0 env3 [] ⟨st.hosts, st.allHosts, st.failure, p2⟩
    h0 p3 r3 (by simpa using hh) hs3]
  rw [if_pos (by simp)]

/-- C7 witness: a single-host replica set answering 500, 500, then 503, with
the last response returned unraised once the budget is spent. -/
theorem replicas_retry_budget_witness :
    Replicas.call 0 false ⟨[4], [4], fun _ => 0, ⟨fun _ => [], 0⟩⟩ 2
      [⟨0, fun _ => .ok ⟨500, "a"⟩, fun _ => .ok ⟨200, ""⟩⟩,
       ⟨0, fun _ => .ok ⟨500, "b"⟩, fun _ => .ok ⟨200, ""⟩⟩,
       ⟨0, fun _ => .ok ⟨503, "c"⟩, fun _ => .ok ⟨200, ""⟩⟩] =
      ([4, 4, 4], .response ⟨503, "c"⟩) := by
  exact replicas_retry_budget ⟨[4], [4], fun _ => 0, ⟨fun _ => [], 0⟩⟩ 0 4
    ⟨0, fun _ => .ok ⟨500, "a"⟩, fun _ => .ok ⟨200, ""⟩⟩
    ⟨0, fun _ => .ok ⟨500, "b"⟩, fun _ => .ok ⟨200, ""⟩⟩
    ⟨0, fun _ => .ok ⟨503, "c"⟩, fun _ => .ok ⟨200, ""⟩⟩
    ⟨500, "a"⟩ ⟨500, "b"⟩ ⟨503, "c"⟩ rfl rfl rfl rfl rfl rfl

/-- C2: with ordered hosts [A, B, C], a transport-level failure of a write to
the primary A removes A from the ordered list and retries the call against
[B, C], so the next write attempt targets B, and A is never again the target
of a write attempt in the rest of the call. -/
theorem replicas_write_failover (A B C : Host) (st : RepState)
    (pick retry : Nat) (e : Nat) (env1 : Env) (envs : List Env)
    (hhosts : st.hosts = [A, B, C]) (hAB : A ≠ B) (hAC : A ≠ C)
    (hfail : (streamRun env1 A st.pool).2 = .error (.sock e)) :
    ∃ ts out,
      Replicas.call pick false st retry (env1 :: envs) = (A :: ts, out) ∧
      ts = (Replicas.call pick false
          ⟨[B, C], st.allHosts, fun h => if h = A then 1 else st.failure h,
            (streamRun env1 A st.pool).1⟩ retry envs).1 ∧
      A ∉ ts ∧
      (envs ≠ [] → ts.head? = some B) := by
  rcases hs1 : streamRun env1 A st.pool with ⟨p1, res1⟩
  rw [hs1] at hfail
  simp only at hfail
  subst hfail
  have hh : st.hosts.head? = some A := by rw [hhosts]; rfl
  have hstep := call_fail_step pick retry env1 envs st A p1 e hh hs1
  rw [hhosts] at hstep
  simp only [List.tail_cons] at hstep
  refine ⟨_, _, hstep, by simp, ?_, ?_⟩
  · intro hmem
    have hsub := call_write_targets_subset pick envs
      ⟨[B, C], st.allHosts, fun h => if h = A then 1 else st.failure h, p1⟩
      retry A hmem
    simp only [List.mem_cons, List.mem_singleton] at hsub
    rcases hsub with h | h | h
    · exact hAB h
    · exact hAC h
    · simp at h
  · intro hne
    cases envs with
    | nil => exact absurd rfl hne
    | cons env2 rest =>
        exact call_write_first_target pick
          ⟨[B, C], st.allHosts, fun h => if h = A then 1 else st.failure h, p1⟩
          retry env2 rest B rfl

/-- C2 witness: hosts [0, 1, 2], a refused connection on the write to 0, then
a successful write that lands on 1. -/
theorem replicas_write_failover_witness :
    ∃ ts out,
      Replicas.call 0 false ⟨[0, 1, 2], [0, 1, 2], fun _ => 0, ⟨fun _ => [], 0⟩⟩ 0
        [⟨0, fun _ => .sockErr 111, fun _ => .ok ⟨200, ""⟩⟩,
         ⟨0, fun _ => .ok ⟨200, "b"⟩, fun _ => .ok ⟨200, ""⟩⟩] = (0 :: ts, out) ∧
      ts = (Replicas.call 0 false
          ⟨[1, 2], [0, 1, 2],
            fun h => if h = 0 then 1 else (fun _ => 0 : Host → Nat) h,
            (streamRun ⟨0, fun _ => .sockErr 111, fun _ => .ok ⟨200, ""⟩⟩ 0
              (⟨fun _ => [], 0⟩ : PState)).1⟩ 0
          [⟨0, fun _ => .ok ⟨200, "b"⟩, fun _ => .ok ⟨200, ""⟩⟩]).1 ∧
      (0 : Host) ∉ ts ∧
      ([(⟨0, fun _ => .ok ⟨200, "b"⟩, fun _ => .ok ⟨200, ""⟩⟩ : Env)] ≠ [] →
        ts.head? = some 1) := by
  exact replicas_write_failover 0 1 2
    ⟨[0, 1, 2], [0, 1, 2], fun _ => 0, ⟨fun _ => [], 0⟩⟩ 0 0 111
    ⟨0, fun _ => .sockErr 111, fun _ => .ok ⟨200, ""⟩⟩
    [⟨0, fun _ => .ok ⟨200, "b"⟩, fun _ => .ok ⟨200, ""⟩⟩]
    rfl (by decide) (by decide) rfl

/-- Shape of one broadcast round: hosts keep their relative order and one
value is yielded per pipeline (helper). -/
theorem broadcastRound_shape (env : Env) :
    ∀ (ps : List (Host × Stage)) (st : PState) (ys : List (Option Response))
      (ps2 : List (Host × Stage)) (st2 : PState),
      broadcastRound env ps st = .ok (ys, ps2, st2) →
      ps2.map Prod.fst = ps.map Prod.fst ∧ ys.length = ps.length := by
  intro ps
  induction ps with
  | nil =>
      intro st ys ps2 st2 h
      rw [broadcastRound] at h
      simp only [Except.ok.injEq, Prod.mk.injEq] at h
      obtain ⟨rfl, rfl, rfl⟩ := h
      simp
  | cons p rest ih =>
      intro st ys ps2 st2 h
      obtain ⟨h0, s0⟩ := p
      rw [broadcastRound] at h
      split at h
      · exact absurd h (by simp)
      · rename_i y s2 st2a heq
        split at h
        · exact absurd h (by simp)
        · rename_i ys0 ps0 st3 heq2
          simp only [Except.ok.injEq, Prod.mk.injEq] at h
          obtain ⟨rfl, rfl, rfl⟩ := h
          obtain ⟨hmap, hlen⟩ := ih _ _ _ _ heq2
          constructor
          · simp [hmap]
          · simp [hlen]

/-- Stage transport through one round: when every incoming pipeline stage
satisfies Q and each step turns a Q stage into an R stage, every outgoing
stage satisfies R (helper). -/
theorem broadcastRound_stages (env : Env) (Q R : Stage → Prop)
    (hstep : ∀ host s st y s2 st2, Q s →
      streamStep env host s st = .ok (y, s2, st2) → R s2) :
    ∀ (ps : List (Host × Stage)) (st : PState) (ys : List (Option Response))
      (ps2 : List (Host × Stage)) (st2 : PState),
      (∀ p ∈ ps, Q p.2) →
      broadcastRound env ps st = .ok (ys, ps2, st2) → ∀ p ∈ ps2, R p.2 := by
  intro ps
  induction ps with
  | nil =>
      intro st ys ps2 st2 hq h
      rw [broadcastRound] at h
      simp only [Except.ok.injEq, Prod.mk.injEq] at h
      obtain ⟨rfl, rfl, rfl⟩ := h
      simp
  | cons p rest ih =>
      intro st ys ps2 st2 hq h
      obtain ⟨h0, s0⟩ := p
      rw [broadcastRound] at h
      split at h
      · exact absurd h (by simp)
      · rename_i y s2 st2a heq
        split at h
        · exact absurd h (by simp)
        · rename_i ys0 ps0 st3 heq2
          simp only [Except.ok.injEq, Prod.mk.injEq] at h
          obtain ⟨rfl, rfl, rfl⟩ := h
          intro p hp
          rcases List.mem_cons.mp hp with rfl | hmem
          · exact hstep h0 s0 st y s2 st2a (hq (h0, s0) (List.mem_cons_self _ _)) heq
          · exact ih _ _ _ _ (fun q hq2 => hq q (List.mem_cons_of_mem _ hq2)) heq2 p hmem

/-- Yield transport through one round: when every step out of a Q stage
yields a value, the round yields a value for every pipeline (helper). -/
theorem broadcastRound_yields (env : Env) (Q : Stage → Prop)
    (hstep : ∀ host s st y s2 st2, Q s →
      streamStep env host s st = .ok (y, s2, st2) → y.isSome) :
    ∀ (ps : List (Host × Stage)) (st : PState) (ys : List (Option Response))
      (ps2 : List (Host × Stage)) (st2 : PState),
      (∀ p ∈ ps, Q p.2) →
      broadcastRound env ps st = .ok (ys, ps2, st2) → ∀ y ∈ ys, y.isSome := by
  intro ps
  induction ps with
  | nil =>
      intro st ys ps2 st2 hq h
      rw [broadcastRound] at h
      simp only [Except.ok.injEq, Prod.mk.injEq] at h
      obtain ⟨rfl, rfl, rfl⟩ := h
      simp
  | cons p rest ih =>
      intro st ys ps2 st2 hq h
      obtain ⟨h0, s0⟩ := p
      rw [broadcastRound] at h
      split at h
      · exact absurd h (by simp)
      · rename_i y s2 st2a heq
        split at h
        · exact absurd h (by simp)
        · rename_i ys0 ps0 st3 heq2
          simp only [Except.ok.injEq, Prod.mk.injEq] at h
          obtain ⟨rfl, rfl, rfl⟩ := h
          intro z hz
          rcases List.mem_cons.mp hz with rfl | hmem
          · exact hstep h0 s0 st z s2 st2a (hq (h0, s0) (List.mem_cons_self _ _)) heq
          · exact ih _ _ _ _ (fun q hq2 => hq q (List.mem_cons_of_mem _ hq2)) heq2 z hmem

/-- The first stage always moves a pipeline from start to sent (helper). -/
theorem streamStep_start_shape (env : Env) (host : Host) (st : PState)
    (y : Option Response) (s2 : Stage) (st2 : PState)
    (h : streamStep env host .start st = .ok (y, s2, st2)) :
    ∃ rid, s2 = Stage.sent rid := by
  simp only [streamStep] at h
  simp only [Except.ok.injEq, Prod.mk.injEq] at h
  exact ⟨_, h.2.1.symm⟩

/-- The second stage moves a sent pipeline to received, recording whether a
resend was scheduled (helper). -/
theorem streamStep_sent_shape (env : Env) (host : Host) (rid : Nat) (st : PState)
    (y : Option Response) (s2 : Stage) (st2 : PState)
    (h : streamStep env host (.sent rid) st = .ok (y, s2, st2)) :
    ∃ resp resent, s2 = Stage.received rid resp resent := by
  simp only [streamStep] at h
  split at h
  · exact absurd h (by simp)
  · rename_i resp q2 b heq
    simp only [Except.ok.injEq, Prod.mk.injEq] at h
    exact ⟨resp, resp.isNone, h.2.1.symm⟩

/-- The third stage moves a received pipeline to done and yields the final
response (helper). -/
theorem streamStep_received_shape (env : Env) (host : Host) (rid : Nat)
    (resp : Option Response) (resent : Bool) (st : PState)
    (y : Option Response) (s2 : Stage) (st2 : PState)
    (h : streamStep env host (.received rid resp resent) st = .ok (y, s2, st2)) :
    ∃ r, y = some r ∧ s2 = Stage.done r := by
  cases resp with
  | some r =>
      simp only [streamStep] at h
      simp only [Except.ok.injEq, Prod.mk.injEq] at h
      exact ⟨r, h.1.symm, h.2.1.symm⟩
  | none =>
      simp only [streamStep] at h
      split at h
      · exact absurd h (by simp)
      · rename_i r heq
        simp only [Except.ok.injEq, Prod.mk.injEq] at h
        exact ⟨r, h.1.symm, h.2.1.symm⟩

/-- C3: a successful broadcast is exactly three lockstep rounds over one
pipeline per host, each round visiting the hosts in the same relative order;
the per-host pipelines advance through the three stages start to sent (the
send), sent to received (the receive, with any resend recorded), received to
done (the final receive), and the result carries exactly one response per
host. -/
theorem broadcast_three_rounds (env : Env) (hosts : List Host) (st : PState)
    (ys : List (Option Response))
    (hok : Resources.broadcast env hosts st = .ok ys) :
    ys.length = hosts.length ∧ (∀ y ∈ ys, y.isSome) ∧
    ∃ ys1 ps1 st1 ys2 ps2 st2 ps3 st3,
      broadcastRound env (hosts.map fun h => (h, Stage.start)) st =
        .ok (ys1, ps1, st1) ∧
      broadcastRound env ps1 st1 = .ok (ys2, ps2, st2) ∧
      broadcastRound env ps2 st2 = .ok (ys, ps3, st3) ∧
      ps1.map Prod.fst = hosts ∧ ps2.map Prod.fst = hosts ∧
      ps3.map Prod.fst = hosts ∧
      (∀ p ∈ ps1, ∃ rid, p.2 = Stage.sent rid) ∧
      (∀ p ∈ ps2, ∃ rid resp resent, p.2 = Stage.received rid resp resent) ∧
      (∀ p ∈ ps3, ∃ r, p.2 = Stage.done r) := by
  rw [Resources.broadcast] at hok
  split at hok
  · exact absurd hok (by simp)
  · rename_i ys1 ps1 st1 heq1
    split at hok
    · exact absurd hok (by simp)
    · rename_i ys2 ps2 st2 heq2
      split at hok
      · exact absurd hok (by simp)
      · rename_i ys3 ps3 st3 heq3
        simp only [Except.ok.injEq] at hok
        subst hok
        obtain ⟨hmap1, -⟩ := broadcastRound_shape env _ _ _ _ _ heq1
        obtain ⟨hmap2, -⟩ := broadcastRound_shape env _ _ _ _ _ heq2
        obtain ⟨hmap3, hlen3⟩ := broadcastRound_shape env _ _ _ _ _ heq3
        have hfst : (hosts.map fun h => (h, Stage.start)).map Prod.fst = hosts := by
          rw [List.map_map]
          exact List.map_id hosts
        have hstart : ∀ p ∈ hosts.map fun h => (h, Stage.start),
            p.2 = Stage.start := by
          intro p hp
          obtain ⟨h, -, rfl⟩ := List.mem_map.mp hp
          rfl
        have hsent : ∀ p ∈ ps1, ∃ rid, p.2 = Stage.sent rid :=
          broadcastRound_stages env (fun s => s = Stage.start)
            (fun s => ∃ rid, s = Stage.sent rid)
            (fun host s stx y s2 st2x hq hstep => by
              subst hq
              exact streamStep_start_shape env host stx y s2 st2x hstep)
            _ _ _ _ _ hstart heq1
        have hrecv : ∀ p ∈ ps2, ∃ rid resp resent,
            p.2 = Stage.received rid resp resent :=
          broadcastRound_stages env (fun s => ∃ rid, s = Stage.sent rid)
            (fun s => ∃ rid resp resent, s = Stage.received rid resp resent)
            (fun host s stx y s2 st2x hq hstep => by
              obtain ⟨rid, rfl⟩ := hq
              obtain ⟨resp, resent, hr⟩ :=
                streamStep_sent_shape env host rid stx y s2 st2x hstep
              exact ⟨rid, resp, resent, hr⟩)
            _ _ _ _ _ hsent heq2
        have hdone : ∀ p ∈ ps3, ∃ r, p.2 = Stage.done r :=
          broadcastRound_stages env
            (fun s => ∃ rid resp resent, s = Stage.received rid resp resent)
            (fun s => ∃ r, s = Stage.done r)
            (fun host s stx y s2 st2x hq hstep => by
              obtain ⟨rid, resp, resent, rfl⟩ := hq
              obtain ⟨r, -, hr⟩ := streamStep_received_shape env host rid resp
                resent stx y s2 st2x hstep
              exact ⟨r, hr⟩)
            _ _ _ _ _ hrecv heq3
        have hyss : ∀ y ∈ ys3, y.isSome :=
          broadcastRound_yields env
            (fun s => ∃ rid resp resent, s = Stage.received rid resp resent)
            (fun host s stx y s2 st2x hq hstep => by
              obtain ⟨rid, resp, resent, rfl⟩ := hq
              obtain ⟨r, hy, -⟩ := streamStep_received_shape env host rid resp
                resent stx y s2 st2x hstep
              simp [hy])
            _ _ _ _ _ hrecv heq3
        have e1 : ps1.length = hosts.length := by
          have := congrArg List.length hmap1
          simpa using this
        have e2 : ps2.length = ps1.length := by
          have := congrArg List.length hmap2
          simpa using this
        refine ⟨?_, hyss, ys1, ps1, st1, ys2, ps2, st2, ps3, st3,
          heq1, heq2, heq3, ?_, ?_, ?_, hsent, hrecv, hdone⟩
        · rw [hlen3, e2, e1]
        · rw [hmap1, hfst]
        · rw [hmap2, hmap1, hfst]
        · rw [hmap3, hmap2, hmap1, hfst]

/-- C3 witness: two hosts answering 200 on an empty pool. -/
theorem broadcast_three_rounds_witness :
    ([some (⟨200, "x"⟩ : Response), some ⟨200, "x"⟩] : List (Option Response)).length =
      ([5, 6] : List Host).length ∧
    (∀ y ∈ ([some (⟨200, "x"⟩ : Response), some ⟨200, "x"⟩] : List (Option Response)),
      y.isSome) ∧
    ∃ ys1 ps1 st1 ys2 ps2 st2 ps3 st3,
      broadcastRound ⟨2, fun _ => .ok ⟨200, "x"⟩, fun _ => .ok ⟨200, "y"⟩⟩
          (([5, 6] : List Host).map fun h => (h, Stage.start)) ⟨fun _ => [], 0⟩ =
        .ok (ys1, ps1, st1) ∧
      broadcastRound ⟨2, fun _ => .ok ⟨200, "x"⟩, fun _ => .ok ⟨200, "y"⟩⟩ ps1 st1 =
        .ok (ys2, ps2, st2) ∧
      broadcastRound ⟨2, fun _ => .ok ⟨200, "x"⟩, fun _ => .ok ⟨200, "y"⟩⟩ ps2 st2 =
        .ok ([some ⟨200, "x"⟩, some ⟨200, "x"⟩], ps3, st3) ∧
      ps1.map Prod.fst = [5, 6] ∧ ps2.map Prod.fst = [5, 6] ∧
      ps3.map Prod.fst = [5, 6] ∧
      (∀ p ∈ ps1, ∃ rid, p.2 = Stage.sent rid) ∧
      (∀ p ∈ ps2, ∃ rid resp resent, p.2 = Stage.received rid resp resent) ∧
      (∀ p ∈ ps3, ∃ r, p.2 = Stage.done r) := by
  exact broadcast_three_rounds ⟨2, fun _ => .ok ⟨200, "x"⟩, fun _ => .ok ⟨200, "y"⟩⟩
    [5, 6] ⟨fun _ => [], 0⟩ [some ⟨200, "x"⟩, some ⟨200, "x"⟩] rfl

/-- Every combination produced by the cross-product expansion contains at
least one host from every processed key's shard group (helper). -/
theorem multicastCombos_cover (index : Key → List Host) :
    ∀ (keys : List Key) (acc : List (Finset Host)) (t : Finset Host),
      t ∈ keys.foldl (fun shards key =>
        shards.flatMap fun s => (index key).map fun h => insert h s) acc →
      ∃ t0 ∈ acc, t0 ⊆ t ∧ ∀ k ∈ keys, ∃ h ∈ index k, h ∈ t := by
  intro keys
  induction keys with
  | nil =>
      intro acc t ht
      exact ⟨t, ht, subset_rfl, by simp⟩
  | cons k ks ih =>
      intro acc t ht
      simp only [List.foldl_cons] at ht
      obtain ⟨t1, ht1, hsub, hcov⟩ := ih _ t ht
      obtain ⟨s, hs, hmem⟩ := List.mem_flatMap.mp ht1
      obtain ⟨h, hh, hins⟩ := List.mem_map.mp hmem
      refine ⟨s, hs, ?_, ?_⟩
      · have hst1 : s ⊆ t1 := by
          rw [← hins]
          exact Finset.subset_insert h s
        exact hst1.trans hsub
      · intro k2 hk2
        rcases List.mem_cons.mp hk2 with rfl | hk2
        · refine ⟨h, hh, hsub ?_⟩
          rw [← hins]
          exact Finset.mem_insert_self h s
        · exact hcov k2 hk2

/-- The cross-product expansion of a batch whose shard groups are all
non-empty is itself non-empty (helper). -/
theorem multicastCombos_ne_nil (index : Key → List Host) :
    ∀ (keys : List Key) (acc : List (Finset Host)),
      acc ≠ [] → (∀ k ∈ keys, index k ≠ []) →
      keys.foldl (fun shards key =>
        shards.flatMap fun s => (index key).map fun h => insert h s) acc ≠ [] := by
  intro keys
  induction keys with
  | nil =>
      intro acc ha _
      simpa using ha
  | cons k ks ih =>
      intro acc ha hg
      simp only [List.foldl_cons]
      apply ih
      · cases hacc : acc with
        | nil => exact absurd hacc ha
        | cons s rest =>
            cases hidx : index k with
            | nil => exact absurd hidx (hg k (List.mem_cons_self _ _))
            | cons h hrest =>
                intro hemp
                have hin : insert h s ∈ acc.flatMap
                    fun s2 => (index k).map fun h2 => insert h2 s2 := by
                  refine List.mem_flatMap.mpr ⟨s, ?_, ?_⟩
                  · rw [hacc]; exact List.mem_cons_self _ _
                  · refine List.mem_map.mpr ⟨h, ?_, rfl⟩
                    rw [hidx]; exact List.mem_cons_self _ _
                rw [hacc, hidx] at hin
                rw [hemp] at hin
                simp at hin
      · intro k2 hk2
        exact hg k2 (List.mem_cons_of_mem _ hk2)

/-- The combined shard priority is always present, so filtering by it is just
mapping it (helper). -/
theorem filterMap_shards_priority (qlen : Host → Nat) (l : List (Finset Host)) :
    l.filterMap (Shards.priority qlen) =
      l.map fun s => toLex (s.card, s.sum fun h => -(qlen h : ℤ)) := by
  induction l with
  | nil => rfl
  | cons s t ih => simp [List.filterMap_cons, Shards.priority, ih]

/-- C1: for a non-empty key batch whose shard groups are all non-empty, the
combination selected by multicast covers the batch (each key has one of its
hosts in the selected set) and no combination of the cross-product expansion
has fewer hosts. -/
theorem multicast_cover_minimal (index : Key → List Host) (qlen : Host → Nat)
    (keys : List Key) (pick : Nat) (_hne : keys ≠ [])
    (hgroups : ∀ k ∈ keys, index k ≠ []) :
    ∃ s, choice (Shards.priority qlen) (multicastCombos index keys) pick = some s ∧
      (∀ k ∈ keys, ∃ h ∈ index k, h ∈ s) ∧
      ∀ t ∈ multicastCombos index keys, s.card ≤ t.card := by
  have hcne : multicastCombos index keys ≠ [] :=
    multicastCombos_ne_nil index keys [∅] (by simp) hgroups
  have hmapeq := filterMap_shards_priority qlen (multicastCombos index keys)
  have hfmne : (multicastCombos index keys).filterMap (Shards.priority qlen) ≠ [] := by
    rw [hmapeq]
    simpa using hcne
  obtain ⟨m, hmin⟩ : ∃ m,
      ((multicastCombos index keys).filterMap (Shards.priority qlen)).min? = some m := by
    cases hm : ((multicastCombos index keys).filterMap (Shards.priority qlen)).min? with
    | none => exact absurd (List.min?_eq_none_iff.mp hm) hfmne
    | some m2 => exact ⟨m2, rfl⟩
  obtain ⟨s, hs⟩ := choice_eq_some_of_min (Shards.priority qlen)
    (multicastCombos index keys) pick m hmin
  obtain ⟨hsmem, m2, hm2, hmin2⟩ := choice_mem_prio hs
  have hm2m : m2 = m := by
    rw [hmin] at hmin2
    exact (Option.some.inj hmin2).symm
  subst hm2m
  refine ⟨s, hs, ?_, ?_⟩
  · obtain ⟨t0, -, -, hcov⟩ := multicastCombos_cover index keys [∅] s hsmem
    exact hcov
  · intro t ht
    have htm : toLex (t.card, t.sum fun h => -(qlen h : ℤ)) ∈
        (multicastCombos index keys).filterMap (Shards.priority qlen) :=
      List.mem_filterMap.mpr ⟨t, ht, rfl⟩
    have hle := (min?_eq_some_iff_lin.mp hmin).2 _ htm
    have hsm : toLex (s.card, s.sum fun h => -(qlen h : ℤ)) = m2 :=
      Option.some.inj hm2
    have h2 := lex_le_fst hle
    rw [← hsm] at h2
    simpa using h2

/-- C1 witness: two keys with overlapping groups; the selected combination is
the singleton overlap. -/
theorem multicast_cover_minimal_witness :
    ∃ s, choice (Shards.priority fun _ => 0)
        (multicastCombos (fun k => if k = 0 then [1, 2] else [2, 3]) [0, 1]) 0 =
          some s ∧
      (∀ k ∈ [0, 1], ∃ h ∈ (if k = 0 then [1, 2] else [2, 3]), h ∈ s) ∧
      ∀ t ∈ multicastCombos (fun k => if k = 0 then [1, 2] else [2, 3]) [0, 1],
        s.card ≤ t.card := by
  exact multicast_cover_minimal (fun k => if k = 0 then [1, 2] else [2, 3])
    (fun _ => 0) [0, 1] 0 (by decide) (by decide)
